import Mathlib

/-!
Verification of the placeholder-substitution resolver (`substituter.py`).

The resolver takes a mapping of named string entries whose values may
contain placeholders of the form a dollar sign followed by a braced
identifier, and rewrites every entry's value in place, recursively
replacing placeholders, memoizing resolved entries, detecting cycles
through a seen chain, and failing on references to names that are not
keys of the mapping.

The mapping is modelled as an association list with the Python dict's
insertion-order iteration semantics; the recursive resolver is modelled
with an explicit fuel parameter (proved sufficient below) and explicit
state passing for the three pieces of mutable state: the entries, the
resolved set, and the seen chain.
-/

/-- The dollar character. -/
def dollarC : Char := Char.ofNat 36

/-- The opening brace character. -/
def lbraceC : Char := Char.ofNat 123

/-- The closing brace character. -/
def rbraceC : Char := Char.ofNat 125

/-- The underscore character. -/
def uscoreC : Char := Char.ofNat 95

/-- Characters allowed in a placeholder identifier: the regex class of
ASCII letters, digits and underscore used by the source pattern. -/
def isIdentChar (c : Char) : Bool := c.isAlpha || c.isDigit || c = uscoreC

/-- One token of a scanned value: either a literal piece of text or a
placeholder occurrence carrying the captured identifier. -/
inductive Tok where
  | lit (s : String)
  | hole (name : String)
deriving DecidableEq

/-- Left-to-right, non-overlapping scan of a value for matches of the
source's placeholder pattern: dollar, opening brace, one or more
identifier characters, closing brace.  Non-matching text is kept as
literal tokens, exactly as `re.sub` leaves non-matching text in place.
The structural fuel parameter is one step per consumed position; every
step consumes at least one character, so `l.length` steps always
complete the scan (see `scanToks`). -/
def scanToksF : Nat → List Char → List Tok
  | _, [] => []
  | 0, _ :: _ => []
  | f + 1, c :: rest =>
    if c = dollarC then
      match rest with
      | c2 :: rest2 =>
        if c2 = lbraceC then
          if rest2.takeWhile isIdentChar ≠ [] ∧
              (rest2.dropWhile isIdentChar).head? = some rbraceC then
            Tok.hole (String.mk (rest2.takeWhile isIdentChar)) ::
              scanToksF f (rest2.dropWhile isIdentChar).tail
          else
            Tok.lit (String.mk [c]) :: scanToksF f (c2 :: rest2)
        else
          Tok.lit (String.mk [c]) :: scanToksF f (c2 :: rest2)
      | [] => [Tok.lit (String.mk [c])]
    else
      Tok.lit (String.mk [c]) :: scanToksF f rest

/-- Scan a whole value; the fuel `l.length` suffices because every scan
step consumes at least one character. -/
def scanToks (l : List Char) : List Tok := scanToksF l.length l

/-- The two error kinds raised by the source: a cyclic substitution
carrying the seen chain, and an undefined substitution carrying the
unresolved name. -/
inductive Err where
  | cyclic (chain : List String)
  | undefined (name : String)
deriving DecidableEq

/-- Outcome of one recursive resolution step: the fully substituted
string, a raised error, or `stuck`, the fuel-exhaustion marker of the
embedding (proved unreachable below). -/
inductive ROut where
  | ok (s : String)
  | err (e : Err)
  | stuck
deriving DecidableEq

/-- The mutable state of one `substitute` invocation: the entries
mapping (association list in insertion order), the resolved set, and
the seen chain of the current top-level resolution. -/
structure St where
  entries : List (String × String)
  resolved : List String
  seen : List String
deriving DecidableEq

/-- Keys of the mapping, in insertion order. -/
def keysOf (E : List (String × String)) : List String := E.map Prod.fst

/-- Dictionary lookup: the value stored at a key, if present. -/
def lookupA (E : List (String × String)) (k : String) : Option String :=
  match E with
  | [] => none
  | (k', v') :: rest => if k' = k then some v' else lookupA rest k

/-- Dictionary assignment: replace the value at a key in place,
appending a new entry at the end when the key is absent (the semantics
of Python dict assignment). -/
def updateA (E : List (String × String)) (k : String) (v : String) :
    List (String × String) :=
  match E with
  | [] => [(k, v)]
  | (k', v') :: rest => if k' = k then (k, v) :: rest else (k', v') :: updateA rest k v

/-- The body of the source's `capture_substituter` closure: given the
recursive resolver `recur`, decide what a placeholder occurrence of
`capture` substitutes to.  The branches are, in source order: undefined
name, memoized entry, cycle detection (appending the repeated name to
the seen chain before raising), and recursive resolution. -/
def handleCapture (recur : String → St → St × ROut) (capture : String) (st : St) :
    St × ROut :=
  match lookupA st.entries capture with
  | none => (st, ROut.err (Err.undefined capture))
  | some v =>
    if capture ∈ st.resolved then (st, ROut.ok v)
    else if capture ∈ st.seen then
      (⟨st.entries, st.resolved, st.seen ++ [capture]⟩,
        ROut.err (Err.cyclic (st.seen ++ [capture])))
    else recur capture st

/-- The effectful left-to-right replacement pass of `re.sub`: literal
tokens are kept, placeholder tokens are replaced by whatever the
capture handler produces, threading state and aborting on error. -/
def substValue (h : String → St → St × ROut) : List Tok → St → St × ROut
  | [], st => (st, ROut.ok "")
  | Tok.lit s :: ts, st =>
    match substValue h ts st with
    | (st', ROut.ok rest) => (st', ROut.ok (s ++ rest))
    | other => other
  | Tok.hole c :: ts, st =>
    match h c st with
    | (st1, ROut.ok v) =>
      match substValue h ts st1 with
      | (st2, ROut.ok rest) => (st2, ROut.ok (v ++ rest))
      | other => other
    | other => other

/-- The final step of `resolve_substitution`: store the substituted
string when it differs from the entry's key name (the source compares
`entry != subst`, the key against the substituted value), then mark
the entry resolved. -/
def finishEntry (entry subst : String) (st : St) : St :=
  if entry = subst then ⟨st.entries, entry :: st.resolved, st.seen⟩
  else ⟨updateA st.entries entry subst, entry :: st.resolved, st.seen⟩

/-- The source's `resolve_substitution`: append the entry to the seen
chain, scan and substitute its current value, conditionally store the
result, and mark the entry resolved.  The fuel argument bounds the
recursion depth of the embedding and is proved sufficient below. -/
def resolveEntry : Nat → String → St → St × ROut
  | 0, _, st => (st, ROut.stuck)
  | fuel + 1, entry, st =>
    match lookupA st.entries entry with
    | none => (⟨st.entries, st.resolved, st.seen ++ [entry]⟩, ROut.stuck)
    | some value =>
      match substValue (handleCapture (resolveEntry fuel)) (scanToks value.data)
          ⟨st.entries, st.resolved, st.seen ++ [entry]⟩ with
      | (st2, ROut.ok subst) => (finishEntry entry subst st2, ROut.ok subst)
      | other => other

/-- Result of a whole `substitute` call: the mutated mapping on
success, an error together with the mapping state at the moment of
raising, or the unreachable fuel-exhaustion marker. -/
inductive SubstResult where
  | ok (entries : List (String × String))
  | err (e : Err) (entries : List (String × String))
  | stuck
deriving DecidableEq

/-- The outer iteration of `substitute`: walk the keys in insertion
order, skipping entries already resolved, starting each top-level
resolution with a fresh seen chain. -/
def substituteLoop : List String → St → SubstResult
  | [], st => SubstResult.ok st.entries
  | k :: ks, st =>
    if k ∈ st.resolved then substituteLoop ks st
    else
      match resolveEntry (st.entries.length + 1) k ⟨st.entries, st.resolved, []⟩ with
      | (st', ROut.ok _) => substituteLoop ks st'
      | (st', ROut.err e) => SubstResult.err e st'.entries
      | (_, ROut.stuck) => SubstResult.stuck

/-- The source's `substitute`: resolve every entry of the mapping,
memoizing across top-level calls through the shared resolved set. -/
def substitute (entries : List (String × String)) : SubstResult :=
  substituteLoop (keysOf entries) ⟨entries, [], []⟩

/-- Names of the placeholders occurring in a value. -/
def holeNames (v : String) : List String :=
  (scanToks v.data).filterMap (fun t => match t with
    | Tok.hole n => some n
    | Tok.lit _ => none)

/-- Every placeholder in every value references a key of the mapping. -/
def fullyDefined (M : List (String × String)) : Prop :=
  ∀ p ∈ M, ∀ n ∈ holeNames p.2, n ∈ keysOf M

instance : DecidablePred (fullyDefined ·) := fun M =>
  inferInstanceAs (Decidable (∀ p ∈ M, ∀ n ∈ holeNames p.2, n ∈ keysOf M))

/-- A rank function witnessing acyclicity of the reference graph:
every placeholder reference strictly decreases the rank. -/
def acyclicRank (M : List (String × String)) (f : String → Nat) : Prop :=
  ∀ p ∈ M, ∀ n ∈ holeNames p.2, f n < f p.1

instance (M : List (String × String)) (f : String → Nat) :
    Decidable (acyclicRank M f) :=
  inferInstanceAs (Decidable (∀ p ∈ M, ∀ n ∈ holeNames p.2, f n < f p.1))

/-! ### Basic facts about the association-list operations -/

theorem lookupA_eq_none_iff (E : List (String × String)) (k : String) :
    lookupA E k = none ↔ k ∉ keysOf E := by
  induction E with
  | nil => simp [lookupA, keysOf]
  | cons p rest ih =>
    obtain ⟨k', v'⟩ := p
    by_cases hk : k' = k
    · subst hk
      simp [lookupA, keysOf]
    · have hk2 : ¬ k = k' := fun hh => hk hh.symm
      simp [lookupA, keysOf, hk, hk2, ih]

theorem mem_keysOf_of_lookupA {E : List (String × String)} {k : String} {v : String}
    (h : lookupA E k = some v) : k ∈ keysOf E := by
  by_contra hk
  rw [← lookupA_eq_none_iff] at hk
  rw [hk] at h
  exact Option.noConfusion h

theorem lookupA_updateA_self (E : List (String × String)) (k v : String) :
    lookupA (updateA E k v) k = some v := by
  induction E with
  | nil => simp [updateA, lookupA]
  | cons p rest ih =>
    obtain ⟨k', v'⟩ := p
    by_cases hk : k' = k <;> simp [updateA, lookupA, hk, ih]

theorem lookupA_updateA_ne (E : List (String × String)) {k k' : String} (v : String)
    (h : k' ≠ k) : lookupA (updateA E k v) k' = lookupA E k' := by
  have h2 : ¬ k = k' := fun hh => h hh.symm
  induction E with
  | nil => simp [updateA, lookupA, h2]
  | cons p rest ih =>
    obtain ⟨k0, v0⟩ := p
    by_cases hk : k0 = k
    · subst hk
      simp [updateA, lookupA, h2]
    · simp [updateA, lookupA, hk, ih]

theorem keysOf_updateA_of_mem {E : List (String × String)} {k : String} (v : String)
    (h : k ∈ keysOf E) : keysOf (updateA E k v) = keysOf E := by
  induction E with
  | nil => simp [keysOf] at h
  | cons p rest ih =>
    obtain ⟨k0, v0⟩ := p
    by_cases hk : k0 = k
    · simp [updateA, keysOf, hk]
    · have hmem : k ∈ keysOf rest := by
        rcases (by simpa [keysOf] using h : k = k0 ∨ k ∈ keysOf rest) with h1 | h1
        · exact absurd h1.symm hk
        · exact h1
      simp [updateA, keysOf, hk]
      simpa [keysOf] using ih hmem

theorem keysOf_length (E : List (String × String)) : (keysOf E).length = E.length := by
  simp [keysOf]

/-! ### Shape of the finishing step -/

theorem finishEntry_seen (e s : String) (st : St) :
    (finishEntry e s st).seen = st.seen := by
  by_cases h : e = s <;> simp [finishEntry, h]

theorem finishEntry_resolved (e s : String) (st : St) :
    (finishEntry e s st).resolved = e :: st.resolved := by
  by_cases h : e = s <;> simp [finishEntry, h]

theorem finishEntry_keys {e : String} (s : String) {st : St}
    (h : e ∈ keysOf st.entries) :
    keysOf (finishEntry e s st).entries = keysOf st.entries := by
  by_cases hes : e = s
  · simp [finishEntry, hes]
  · simp [finishEntry, hes, keysOf_updateA_of_mem s h]

/-! ### State evolution: the resolver never changes the key set and only
appends to the seen chain -/

/-- Evolution relation between the state at the start and at the end of
any step of the resolver: the key set (as an ordered list) is unchanged
and the seen chain has only been extended at the end. -/
def Evo (st st' : St) : Prop :=
  keysOf st'.entries = keysOf st.entries ∧ ∃ ext, st'.seen = st.seen ++ ext

theorem evo_rfl (st : St) : Evo st st := ⟨rfl, [], by simp⟩

theorem evo_trans {s1 s2 s3 : St} (h1 : Evo s1 s2) (h2 : Evo s2 s3) : Evo s1 s3 := by
  obtain ⟨hk1, e1, he1⟩ := h1
  obtain ⟨hk2, e2, he2⟩ := h2
  exact ⟨hk2.trans hk1, e1 ++ e2, by simp [he2, he1]⟩

theorem substValue_evo {h : String → St → St × ROut}
    (H : ∀ c st st' r, h c st = (st', r) → Evo st st') :
    ∀ toks st st' r, substValue h toks st = (st', r) → Evo st st' := by
  intro toks
  induction toks with
  | nil =>
    intro st st' r heq
    simp only [substValue] at heq
    cases heq
    exact evo_rfl st
  | cons t ts ih =>
    intro st st' r heq
    cases t with
    | lit s =>
      cases hs : substValue h ts st with
      | mk stm rm =>
        have hevo := ih st stm rm hs
        cases rm <;> simp only [substValue, hs] at heq <;> cases heq <;> exact hevo
    | hole c =>
      cases hh : h c st with
      | mk st1 r1 =>
        have hevo1 := H c st st1 r1 hh
        cases r1 with
        | ok v =>
          cases hs : substValue h ts st1 with
          | mk st2 r2 =>
            have hevo2 := ih st1 st2 r2 hs
            cases r2 <;> simp only [substValue, hh, hs] at heq <;> cases heq <;>
              exact evo_trans hevo1 hevo2
        | err e =>
          simp only [substValue, hh] at heq
          cases heq
          exact hevo1
        | stuck =>
          simp only [substValue, hh] at heq
          cases heq
          exact hevo1

theorem handleCapture_evo {f : String → St → St × ROut}
    (H : ∀ c st st' r, f c st = (st', r) → Evo st st') :
    ∀ c st st' r, handleCapture f c st = (st', r) → Evo st st' := by
  intro c st st' r heq
  simp only [handleCapture] at heq
  cases hl : lookupA st.entries c with
  | none =>
    simp only [hl] at heq
    cases heq
    exact evo_rfl st
  | some v =>
    simp only [hl] at heq
    by_cases hres : c ∈ st.resolved
    · simp only [if_pos hres] at heq
      cases heq
      exact evo_rfl st
    · simp only [if_neg hres] at heq
      by_cases hseen : c ∈ st.seen
      · simp only [if_pos hseen] at heq
        cases heq
        exact ⟨rfl, [c], rfl⟩
      · simp only [if_neg hseen] at heq
        exact H c st st' r heq

theorem resolveEntry_evo :
    ∀ (f : Nat) (entry : String) (st st' : St) (r : ROut),
      resolveEntry f entry st = (st', r) →
      Evo st st' ∧ (r ≠ ROut.stuck → ∃ ext, st'.seen = st.seen ++ entry :: ext) := by
  intro f
  induction f with
  | zero =>
    intro entry st st' r heq
    simp only [resolveEntry] at heq
    cases heq
    exact ⟨evo_rfl st, fun hr => absurd rfl hr⟩
  | succ n ih =>
    intro entry st st' r heq
    simp only [resolveEntry] at heq
    cases hl : lookupA st.entries entry with
    | none =>
      simp only [hl] at heq
      cases heq
      exact ⟨⟨rfl, [entry], rfl⟩, fun hr => absurd rfl hr⟩
    | some value =>
      simp only [hl] at heq
      have Hhandle : ∀ c stA stB rB,
          handleCapture (resolveEntry n) c stA = (stB, rB) → Evo stA stB :=
        handleCapture_evo (fun c stA stB rB hB => (ih c stA stB rB hB).1)
      cases hs : substValue (handleCapture (resolveEntry n)) (scanToks value.data)
          ⟨st.entries, st.resolved, st.seen ++ [entry]⟩ with
      | mk st2 r2 =>
        have hevo2 : Evo ⟨st.entries, st.resolved, st.seen ++ [entry]⟩ st2 :=
          substValue_evo Hhandle _ _ _ _ hs
        obtain ⟨hk2, ext2, hseen2⟩ := hevo2
        have hentry_mem : entry ∈ keysOf st2.entries := by
          rw [hk2]
          exact mem_keysOf_of_lookupA hl
        cases r2 with
        | ok subst =>
          simp only [hs] at heq
          cases heq
          refine ⟨⟨?_, entry :: ext2, ?_⟩, fun _ => ⟨ext2, ?_⟩⟩
          · rw [finishEntry_keys subst hentry_mem]
            exact hk2
          · rw [finishEntry_seen]
            simpa using hseen2
          · rw [finishEntry_seen]
            simpa using hseen2
        | err e =>
          simp only [hs] at heq
          cases heq
          exact ⟨⟨hk2, [entry] ++ ext2, by simpa using hseen2⟩,
            fun _ => ⟨ext2, by simpa using hseen2⟩⟩
        | stuck =>
          simp only [hs] at heq
          cases heq
          exact ⟨⟨hk2, [entry] ++ ext2, by simpa using hseen2⟩,
            fun _ => ⟨ext2, by simpa using hseen2⟩⟩

/-! ### Seen keys are frozen: no write ever touches a key that is on the
active chain, because every store targets the entry of a resolution frame
and every frame's entry was not on the chain when the frame started -/

theorem substValue_frozen {h : String → St → St × ROut}
    (He : ∀ c st st' r, h c st = (st', r) → Evo st st')
    (Hf : ∀ c st st' r, h c st = (st', r) →
      ∀ k ∈ st.seen, lookupA st'.entries k = lookupA st.entries k) :
    ∀ toks st st' r, substValue h toks st = (st', r) →
      ∀ k ∈ st.seen, lookupA st'.entries k = lookupA st.entries k := by
  intro toks
  induction toks with
  | nil =>
    intro st st' r heq k hk
    simp only [substValue] at heq
    cases heq
    rfl
  | cons t ts ih =>
    intro st st' r heq k hk
    cases t with
    | lit s =>
      cases hs : substValue h ts st with
      | mk stm rm =>
        have hfr := ih st stm rm hs k hk
        cases rm <;> simp only [substValue, hs] at heq <;> cases heq <;> exact hfr
    | hole c =>
      cases hh : h c st with
      | mk st1 r1 =>
        have hfr1 := Hf c st st1 r1 hh k hk
        have hk1 : k ∈ st1.seen := by
          obtain ⟨_, ext, hext⟩ := He c st st1 r1 hh
          rw [hext]
          exact List.mem_append_left ext hk
        cases r1 with
        | ok v =>
          cases hs : substValue h ts st1 with
          | mk st2 r2 =>
            have hfr2 := ih st1 st2 r2 hs k hk1
            cases r2 <;> simp only [substValue, hh, hs] at heq <;> cases heq <;>
              exact hfr2.trans hfr1
        | err e =>
          simp only [substValue, hh] at heq
          cases heq
          exact hfr1
        | stuck =>
          simp only [substValue, hh] at heq
          cases heq
          exact hfr1

theorem handleCapture_frozen {f : String → St → St × ROut}
    (Hf : ∀ c st st' r, c ∉ st.seen → f c st = (st', r) →
      ∀ k ∈ st.seen, lookupA st'.entries k = lookupA st.entries k) :
    ∀ c st st' r, handleCapture f c st = (st', r) →
      ∀ k ∈ st.seen, lookupA st'.entries k = lookupA st.entries k := by
  intro c st st' r heq k hk
  simp only [handleCapture] at heq
  cases hl : lookupA st.entries c with
  | none =>
    simp only [hl] at heq
    cases heq
    rfl
  | some v =>
    simp only [hl] at heq
    by_cases hres : c ∈ st.resolved
    · simp only [if_pos hres] at heq
      cases heq
      rfl
    · simp only [if_neg hres] at heq
      by_cases hseen : c ∈ st.seen
      · simp only [if_pos hseen] at heq
        cases heq
        rfl
      · simp only [if_neg hseen] at heq
        exact Hf c st st' r hseen heq k hk

theorem resolveEntry_frozen :
    ∀ (f : Nat) (entry : String) (st st' : St) (r : ROut), entry ∉ st.seen →
      resolveEntry f entry st = (st', r) →
      ∀ k ∈ st.seen, lookupA st'.entries k = lookupA st.entries k := by
  intro f
  induction f with
  | zero =>
    intro entry st st' r _ heq k hk
    simp only [resolveEntry] at heq
    cases heq
    rfl
  | succ n ih =>
    intro entry st st' r hentry heq k hk
    simp only [resolveEntry] at heq
    cases hl : lookupA st.entries entry with
    | none =>
      simp only [hl] at heq
      cases heq
      rfl
    | some value =>
      simp only [hl] at heq
      have hkin : k ∈ (St.mk st.entries st.resolved (st.seen ++ [entry])).seen :=
        List.mem_append_left [entry] hk
      cases hs : substValue (handleCapture (resolveEntry n)) (scanToks value.data)
          ⟨st.entries, st.resolved, st.seen ++ [entry]⟩ with
      | mk st2 r2 =>
        have hfr2 : lookupA st2.entries k = lookupA st.entries k :=
          substValue_frozen
            (handleCapture_evo (fun c stA stB rB hB => (resolveEntry_evo n c stA stB rB hB).1))
            (handleCapture_frozen ih) _ _ _ _ hs k hkin
        have hke : k ≠ entry := fun hke => hentry (hke ▸ hk)
        cases r2 with
        | ok subst =>
          simp only [hs] at heq
          cases heq
          by_cases hes : entry = subst
          · simpa [finishEntry, hes] using hfr2
          · simp only [finishEntry, hes, if_neg, not_false_iff]
            rw [lookupA_updateA_ne st2.entries subst hke]
            exact hfr2
        | err e =>
          simp only [hs] at heq
          cases heq
          exact hfr2
        | stuck =>
          simp only [hs] at heq
          cases heq
          exact hfr2

/-! ### The seen chain stays duplicate-free, except for the single name
appended at the moment a cycle is detected -/

/-- Invariant of the seen chain at the end of a resolver step: on any
outcome other than a cyclic error the chain is duplicate-free; on a
cyclic error the carried chain is exactly the final seen chain, a
duplicate-free chain with the repeated name appended at the end. -/
def SeenOkay (st' : St) (r : ROut) : Prop :=
  match r with
  | ROut.err (Err.cyclic c) =>
    c = st'.seen ∧ ∃ pre n, st'.seen = pre ++ [n] ∧ n ∈ pre ∧ pre.Nodup
  | _ => st'.seen.Nodup

theorem nodup_snoc {l : List String} {a : String} (h : l.Nodup) (ha : a ∉ l) :
    (l ++ [a]).Nodup := by
  rw [List.nodup_append]
  refine ⟨h, List.nodup_singleton a, fun x hx hxa => ?_⟩
  have hxeq : x = a := by simpa using hxa
  exact ha (hxeq ▸ hx)

theorem substValue_nodup {h : String → St → St × ROut}
    (Hn : ∀ c st st' r, st.seen.Nodup → h c st = (st', r) → SeenOkay st' r) :
    ∀ toks st st' r, st.seen.Nodup → substValue h toks st = (st', r) →
      SeenOkay st' r := by
  intro toks
  induction toks with
  | nil =>
    intro st st' r hnd heq
    simp only [substValue] at heq
    cases heq
    exact hnd
  | cons t ts ih =>
    intro st st' r hnd heq
    cases t with
    | lit s =>
      cases hs : substValue h ts st with
      | mk stm rm =>
        have hok := ih st stm rm hnd hs
        cases rm <;> simp only [substValue, hs] at heq <;> cases heq <;> exact hok
    | hole c =>
      cases hh : h c st with
      | mk st1 r1 =>
        have hok1 := Hn c st st1 r1 hnd hh
        cases r1 with
        | ok v =>
          cases hs : substValue h ts st1 with
          | mk st2 r2 =>
            have hok2 := ih st1 st2 r2 hok1 hs
            cases r2 <;> simp only [substValue, hh, hs] at heq <;> cases heq <;> exact hok2
        | err e =>
          simp only [substValue, hh] at heq
          cases heq
          exact hok1
        | stuck =>
          simp only [substValue, hh] at heq
          cases heq
          exact hok1

theorem handleCapture_nodup {f : String → St → St × ROut}
    (Hn : ∀ c st st' r, st.seen.Nodup → c ∉ st.seen → f c st = (st', r) →
      SeenOkay st' r) :
    ∀ c st st' r, st.seen.Nodup → handleCapture f c st = (st', r) →
      SeenOkay st' r := by
  intro c st st' r hnd heq
  simp only [handleCapture] at heq
  cases hl : lookupA st.entries c with
  | none =>
    simp only [hl] at heq
    cases heq
    exact hnd
  | some v =>
    simp only [hl] at heq
    by_cases hres : c ∈ st.resolved
    · simp only [if_pos hres] at heq
      cases heq
      exact hnd
    · simp only [if_neg hres] at heq
      by_cases hseen : c ∈ st.seen
      · simp only [if_pos hseen] at heq
        cases heq
        exact ⟨rfl, st.seen, c, rfl, hseen, hnd⟩
      · simp only [if_neg hseen] at heq
        exact Hn c st st' r hnd hseen heq

theorem resolveEntry_nodup :
    ∀ (f : Nat) (entry : String) (st st' : St) (r : ROut),
      st.seen.Nodup → entry ∉ st.seen → resolveEntry f entry st = (st', r) →
      SeenOkay st' r := by
  intro f
  induction f with
  | zero =>
    intro entry st st' r hnd _ heq
    simp only [resolveEntry] at heq
    cases heq
    exact hnd
  | succ n ih =>
    intro entry st st' r hnd hentry heq
    simp only [resolveEntry] at heq
    have hnd1 : (st.seen ++ [entry]).Nodup := nodup_snoc hnd hentry
    cases hl : lookupA st.entries entry with
    | none =>
      simp only [hl] at heq
      cases heq
      exact hnd1
    | some value =>
      simp only [hl] at heq
      cases hs : substValue (handleCapture (resolveEntry n)) (scanToks value.data)
          ⟨st.entries, st.resolved, st.seen ++ [entry]⟩ with
      | mk st2 r2 =>
        have hok2 : SeenOkay st2 r2 :=
          substValue_nodup (handleCapture_nodup ih) _ _ _ _ hnd1 hs
        cases r2 with
        | ok subst =>
          simp only [hs] at heq
          cases heq
          simpa [SeenOkay, finishEntry_seen] using hok2
        | err e =>
          simp only [hs] at heq
          cases heq
          exact hok2
        | stuck =>
          simp only [hs] at heq
          cases heq
          exact hok2

/-! ### Fuel adequacy: the recursion depth is bounded by the number of
keys not yet on the seen chain, so the fuel chosen by `substituteLoop`
never runs out -/

/-- Number of distinct keys of the mapping that are not yet on the seen
chain.  Every recursive descent strictly decreases this measure. -/
def unseenCount (st : St) : Nat :=
  ((keysOf st.entries).dedup.filter (fun k => decide (k ∉ st.seen))).length

theorem unseenCount_le (st : St) : unseenCount st ≤ st.entries.length := by
  calc ((keysOf st.entries).dedup.filter (fun k => decide (k ∉ st.seen))).length
      ≤ (keysOf st.entries).dedup.length := List.length_filter_le _ _
    _ ≤ (keysOf st.entries).length := (List.dedup_sublist _).length_le
    _ = st.entries.length := keysOf_length _

theorem unseenCount_mono {st st' : St} (h : Evo st st') :
    unseenCount st' ≤ unseenCount st := by
  obtain ⟨hk, ext, hext⟩ := h
  unfold unseenCount
  rw [hk]
  refine List.Sublist.length_le (List.monotone_filter_right _ ?_)
  intro a ha
  simp only [decide_eq_true_eq] at ha ⊢
  intro hmem
  exact ha (hext ▸ List.mem_append_left ext hmem)

theorem unseenCount_strict {st : St} {entry : String}
    (hmem : entry ∈ keysOf st.entries) (hseen : entry ∉ st.seen) :
    unseenCount ⟨st.entries, st.resolved, st.seen ++ [entry]⟩ < unseenCount st := by
  unfold unseenCount
  have hsub : List.Sublist
      ((keysOf st.entries).dedup.filter (fun k => decide (k ∉ st.seen ++ [entry])))
      ((keysOf st.entries).dedup.filter (fun k => decide (k ∉ st.seen))) := by
    refine List.monotone_filter_right _ ?_
    intro a ha
    simp only [decide_eq_true_eq] at ha ⊢
    intro hmem2
    exact ha (List.mem_append_left [entry] hmem2)
  have hin : entry ∈ (keysOf st.entries).dedup.filter
      (fun k => decide (k ∉ st.seen)) := by
    rw [List.mem_filter]
    exact ⟨List.mem_dedup.mpr hmem, by simpa using hseen⟩
  have hout : entry ∉ (keysOf st.entries).dedup.filter
      (fun k => decide (k ∉ st.seen ++ [entry])) := by
    rw [List.mem_filter]
    rintro ⟨-, habs⟩
    simp at habs
  rcases Nat.lt_or_ge
      ((keysOf st.entries).dedup.filter
        (fun k => decide (k ∉ st.seen ++ [entry]))).length
      ((keysOf st.entries).dedup.filter
        (fun k => decide (k ∉ st.seen))).length with hlt | hge
  · exact hlt
  · exfalso
    have heq := hsub.eq_of_length (Nat.le_antisymm hsub.length_le hge)
    rw [heq] at hout
    exact hout hin

theorem handleCapture_adeq (n : Nat)
    (Hr : ∀ entry st, entry ∈ keysOf st.entries → entry ∉ st.seen →
      unseenCount st < n → ∀ st' r, resolveEntry n entry st = (st', r) →
      r ≠ ROut.stuck) :
    ∀ c st, unseenCount st < n → ∀ st' r,
      handleCapture (resolveEntry n) c st = (st', r) → r ≠ ROut.stuck := by
  intro c st hU st' r heq
  simp only [handleCapture] at heq
  cases hl : lookupA st.entries c with
  | none =>
    simp only [hl] at heq
    cases heq
    exact fun h => ROut.noConfusion h
  | some v =>
    simp only [hl] at heq
    by_cases hres : c ∈ st.resolved
    · simp only [if_pos hres] at heq
      cases heq
      exact fun h => ROut.noConfusion h
    · simp only [if_neg hres] at heq
      by_cases hseen : c ∈ st.seen
      · simp only [if_pos hseen] at heq
        cases heq
        exact fun h => ROut.noConfusion h
      · simp only [if_neg hseen] at heq
        exact Hr c st (mem_keysOf_of_lookupA hl) hseen hU st' r heq

theorem substValue_adeq (n : Nat)
    (Hr : ∀ entry st, entry ∈ keysOf st.entries → entry ∉ st.seen →
      unseenCount st < n → ∀ st' r, resolveEntry n entry st = (st', r) →
      r ≠ ROut.stuck) :
    ∀ toks st, unseenCount st < n → ∀ st' r,
      substValue (handleCapture (resolveEntry n)) toks st = (st', r) →
      r ≠ ROut.stuck := by
  intro toks
  induction toks with
  | nil =>
    intro st hU st' r heq
    simp only [substValue] at heq
    cases heq
    exact fun h => ROut.noConfusion h
  | cons t ts ih =>
    intro st hU st' r heq
    cases t with
    | lit s =>
      cases hs : substValue (handleCapture (resolveEntry n)) ts st with
      | mk stm rm =>
        have hok := ih st hU stm rm hs
        cases rm <;> simp only [substValue, hs] at heq <;> cases heq <;>
          first
            | exact fun h => ROut.noConfusion h
            | exact hok
    | hole c =>
      cases hh : handleCapture (resolveEntry n) c st with
      | mk st1 r1 =>
        have hok1 := handleCapture_adeq n Hr c st hU st1 r1 hh
        have hevo1 : Evo st st1 :=
          handleCapture_evo
            (fun cc stA stB rB hB => (resolveEntry_evo n cc stA stB rB hB).1)
            c st st1 r1 hh
        cases r1 with
        | ok v =>
          cases hs : substValue (handleCapture (resolveEntry n)) ts st1 with
          | mk st2 r2 =>
            have hU1 : unseenCount st1 < n :=
              Nat.lt_of_le_of_lt (unseenCount_mono hevo1) hU
            have hok2 := ih st1 hU1 st2 r2 hs
            cases r2 <;> simp only [substValue, hh, hs] at heq <;> cases heq <;>
              first
                | exact fun h => ROut.noConfusion h
                | exact hok2
        | err e =>
          simp only [substValue, hh] at heq
          cases heq
          exact fun h => ROut.noConfusion h
        | stuck =>
          exact absurd rfl hok1

theorem resolveEntry_adeq :
    ∀ (f : Nat) (entry : String) (st : St), entry ∈ keysOf st.entries →
      entry ∉ st.seen → unseenCount st < f →
      ∀ st' r, resolveEntry f entry st = (st', r) → r ≠ ROut.stuck := by
  intro f
  induction f with
  | zero =>
    intro entry st _ _ hU
    exact absurd hU (Nat.not_lt_zero _)
  | succ n ih =>
    intro entry st hmem hseen hU st' r heq
    simp only [resolveEntry] at heq
    cases hl : lookupA st.entries entry with
    | none =>
      exact absurd hl ((not_iff_not.mpr (lookupA_eq_none_iff st.entries entry)).mpr
        (not_not_intro hmem))
    | some value =>
      simp only [hl] at heq
      cases hs : substValue (handleCapture (resolveEntry n)) (scanToks value.data)
          ⟨st.entries, st.resolved, st.seen ++ [entry]⟩ with
      | mk st2 r2 =>
        have hU1 : unseenCount ⟨st.entries, st.resolved, st.seen ++ [entry]⟩ < n := by
          have hstrict := unseenCount_strict hmem hseen
          omega
        have hok2 := substValue_adeq n ih _ _ hU1 st2 r2 hs
        cases r2 with
        | ok subst =>
          simp only [hs] at heq
          cases heq
          exact fun h => ROut.noConfusion h
        | err e =>
          simp only [hs] at heq
          cases heq
          exact fun h => ROut.noConfusion h
        | stuck => exact absurd rfl hok2

/-! ### Undefined-reference errors carry a name that is not a key -/

theorem substValue_uerr {h : String → St → St × ROut}
    (Hu : ∀ c st st' n, h c st = (st', ROut.err (Err.undefined n)) →
      lookupA st'.entries n = none) :
    ∀ toks st st' n,
      substValue h toks st = (st', ROut.err (Err.undefined n)) →
      lookupA st'.entries n = none := by
  intro toks
  induction toks with
  | nil =>
    intro st st' n heq
    simp only [substValue] at heq
    cases heq
  | cons t ts ih =>
    intro st st' n heq
    cases t with
    | lit s =>
      cases hs : substValue h ts st with
      | mk stm rm =>
        cases rm <;> simp only [substValue, hs] at heq <;> cases heq <;>
          exact ih _ _ _ hs
    | hole c =>
      cases hh : h c st with
      | mk st1 r1 =>
        cases r1 with
        | ok v =>
          cases hs : substValue h ts st1 with
          | mk st2 r2 =>
            cases r2 <;> simp only [substValue, hh, hs] at heq <;> cases heq <;>
              exact ih _ _ _ hs
        | err e =>
          simp only [substValue, hh] at heq
          cases heq
          exact Hu _ _ _ _ hh
        | stuck =>
          simp only [substValue, hh] at heq
          cases heq

theorem handleCapture_uerr {f : String → St → St × ROut}
    (Hu : ∀ c st st' n, f c st = (st', ROut.err (Err.undefined n)) →
      lookupA st'.entries n = none) :
    ∀ c st st' n, handleCapture f c st = (st', ROut.err (Err.undefined n)) →
      lookupA st'.entries n = none := by
  intro c st st' n heq
  simp only [handleCapture] at heq
  cases hl : lookupA st.entries c with
  | none =>
    simp only [hl] at heq
    cases heq
    exact hl
  | some v =>
    simp only [hl] at heq
    by_cases hres : c ∈ st.resolved
    · simp only [if_pos hres] at heq
      cases heq
    · simp only [if_neg hres] at heq
      by_cases hseen : c ∈ st.seen
      · simp only [if_pos hseen] at heq
        cases heq
      · simp only [if_neg hseen] at heq
        exact Hu _ _ _ _ heq

theorem resolveEntry_uerr :
    ∀ (f : Nat) (entry : String) (st st' : St) (n : String),
      resolveEntry f entry st = (st', ROut.err (Err.undefined n)) →
      lookupA st'.entries n = none := by
  intro f
  induction f with
  | zero =>
    intro entry st st' n heq
    simp only [resolveEntry] at heq
    cases heq
  | succ m ih =>
    intro entry st st' n heq
    simp only [resolveEntry] at heq
    cases hl : lookupA st.entries entry with
    | none =>
      simp only [hl] at heq
      cases heq
    | some value =>
      simp only [hl] at heq
      cases hs : substValue (handleCapture (resolveEntry m)) (scanToks value.data)
          ⟨st.entries, st.resolved, st.seen ++ [entry]⟩ with
      | mk st2 r2 =>
        cases r2 with
        | ok subst =>
          simp only [hs] at heq
          cases heq
        | err e =>
          simp only [hs] at heq
          cases heq
          exact substValue_uerr (handleCapture_uerr ih) _ _ _ _ hs
        | stuck =>
          simp only [hs] at heq
          cases heq

/-! ### Lifting the invariants through the outer loop of `substitute` -/

theorem substituteLoop_keys :
    ∀ (ks : List String) (st : St),
      (∀ E, substituteLoop ks st = SubstResult.ok E →
        keysOf E = keysOf st.entries) ∧
      (∀ e E, substituteLoop ks st = SubstResult.err e E →
        keysOf E = keysOf st.entries) := by
  intro ks
  induction ks with
  | nil =>
    intro st
    constructor
    · intro E heq
      simp only [substituteLoop] at heq
      cases heq
      rfl
    · intro e E heq
      simp only [substituteLoop] at heq
      cases heq
  | cons k ks ih =>
    intro st
    by_cases hres : k ∈ st.resolved
    · constructor
      · intro E heq
        simp only [substituteLoop, if_pos hres] at heq
        exact (ih st).1 E heq
      · intro e E heq
        simp only [substituteLoop, if_pos hres] at heq
        exact (ih st).2 e E heq
    · cases hr : resolveEntry (st.entries.length + 1) k
          ⟨st.entries, st.resolved, []⟩ with
      | mk st' r =>
        have hkeys : keysOf st'.entries = keysOf st.entries :=
          (resolveEntry_evo _ k ⟨st.entries, st.resolved, []⟩ st' r hr).1.1
        cases r with
        | ok s =>
          constructor
          · intro E heq
            simp only [substituteLoop, if_neg hres, hr] at heq
            exact ((ih st').1 E heq).trans hkeys
          · intro e E heq
            simp only [substituteLoop, if_neg hres, hr] at heq
            exact ((ih st').2 e E heq).trans hkeys
        | err e0 =>
          constructor
          · intro E heq
            simp only [substituteLoop, if_neg hres, hr] at heq
            cases heq
          · intro e E heq
            simp only [substituteLoop, if_neg hres, hr] at heq
            cases heq
            exact hkeys
        | stuck =>
          constructor
          · intro E heq
            simp only [substituteLoop, if_neg hres, hr] at heq
            cases heq
          · intro e E heq
            simp only [substituteLoop, if_neg hres, hr] at heq
            cases heq

theorem substituteLoop_no_stuck :
    ∀ (ks : List String) (st : St), (∀ k ∈ ks, k ∈ keysOf st.entries) →
      substituteLoop ks st ≠ SubstResult.stuck := by
  intro ks
  induction ks with
  | nil =>
    intro st _ heq
    simp only [substituteLoop] at heq
    cases heq
  | cons k ks ih =>
    intro st hks heq
    by_cases hres : k ∈ st.resolved
    · simp only [substituteLoop, if_pos hres] at heq
      exact ih st (fun k' hk' => hks k' (List.mem_cons_of_mem k hk')) heq
    · cases hr : resolveEntry (st.entries.length + 1) k
          ⟨st.entries, st.resolved, []⟩ with
      | mk st' r =>
        have hadq : r ≠ ROut.stuck := by
          refine resolveEntry_adeq _ k ⟨st.entries, st.resolved, []⟩
            (hks k (List.mem_cons_self k ks)) (by simp) ?_ st' r hr
          have hle := unseenCount_le ⟨st.entries, st.resolved, []⟩
          dsimp only at hle
          omega
        have hkeys : keysOf st'.entries = keysOf st.entries :=
          (resolveEntry_evo _ k ⟨st.entries, st.resolved, []⟩ st' r hr).1.1
        cases r with
        | ok s =>
          simp only [substituteLoop, if_neg hres, hr] at heq
          refine ih st' (fun k' hk' => ?_) heq
          rw [hkeys]
          exact hks k' (List.mem_cons_of_mem k hk')
        | err e0 =>
          simp only [substituteLoop, if_neg hres, hr] at heq
          cases heq
        | stuck => exact absurd rfl hadq

theorem substituteLoop_uerr :
    ∀ (ks : List String) (st : St) (n : String) (E : List (String × String)),
      substituteLoop ks st = SubstResult.err (Err.undefined n) E →
      lookupA E n = none := by
  intro ks
  induction ks with
  | nil =>
    intro st n E heq
    simp only [substituteLoop] at heq
    cases heq
  | cons k ks ih =>
    intro st n E heq
    by_cases hres : k ∈ st.resolved
    · simp only [substituteLoop, if_pos hres] at heq
      exact ih st n E heq
    · cases hr : resolveEntry (st.entries.length + 1) k
          ⟨st.entries, st.resolved, []⟩ with
      | mk st' r =>
        cases r with
        | ok s =>
          simp only [substituteLoop, if_neg hres, hr] at heq
          exact ih st' n E heq
        | err e0 =>
          cases e0 with
          | cyclic c0 =>
            simp only [substituteLoop, if_neg hres, hr] at heq
            cases heq
          | undefined n0 =>
            simp only [substituteLoop, if_neg hres, hr] at heq
            cases heq
            exact resolveEntry_uerr _ k _ _ _ hr
        | stuck =>
          simp only [substituteLoop, if_neg hres, hr] at heq
          cases heq

theorem substituteLoop_cyclic :
    ∀ (ks : List String) (st : St) (c : List String) (E : List (String × String)),
      (∀ k ∈ ks, k ∈ keysOf st.entries) →
      substituteLoop ks st = SubstResult.err (Err.cyclic c) E →
      ∃ pre n, c = pre ++ [n] ∧ n ∈ pre ∧ pre.Nodup ∧
        ∃ k, pre.head? = some k ∧ k ∈ keysOf st.entries := by
  intro ks
  induction ks with
  | nil =>
    intro st c E _ heq
    simp only [substituteLoop] at heq
    cases heq
  | cons k ks ih =>
    intro st c E hks heq
    by_cases hres : k ∈ st.resolved
    · simp only [substituteLoop, if_pos hres] at heq
      exact ih st c E (fun k' hk' => hks k' (List.mem_cons_of_mem k hk')) heq
    · cases hr : resolveEntry (st.entries.length + 1) k
          ⟨st.entries, st.resolved, []⟩ with
      | mk st' r =>
        have hkeys : keysOf st'.entries = keysOf st.entries :=
          (resolveEntry_evo _ k ⟨st.entries, st.resolved, []⟩ st' r hr).1.1
        cases r with
        | ok s =>
          simp only [substituteLoop, if_neg hres, hr] at heq
          obtain ⟨pre, n, h1, h2, h3, k', h4, h5⟩ :=
            ih st' c E (fun k' hk' => by
              rw [hkeys]
              exact hks k' (List.mem_cons_of_mem k hk')) heq
          exact ⟨pre, n, h1, h2, h3, k', h4, hkeys ▸ h5⟩
        | err e0 =>
          cases e0 with
          | undefined n0 =>
            simp only [substituteLoop, if_neg hres, hr] at heq
            cases heq
          | cyclic c0 =>
            simp only [substituteLoop, if_neg hres, hr] at heq
            cases heq
            have hok := resolveEntry_nodup _ k ⟨st.entries, st.resolved, []⟩ st'
              _ List.nodup_nil (by simp) hr
            obtain ⟨hc_seen, pre, n, hsplit, hmem, hnd⟩ := hok
            have hch : ∃ ext, st'.seen = [] ++ k :: ext :=
              (resolveEntry_evo _ k ⟨st.entries, st.resolved, []⟩ st'
                _ hr).2 (fun hr2 => ROut.noConfusion hr2)
            obtain ⟨ext, hext⟩ := hch
            refine ⟨pre, n, hc_seen.trans hsplit, hmem, hnd, k, ?_,
              hks k (List.mem_cons_self k ks)⟩
            have hpre_ne : pre ≠ [] := by
              intro habs
              rw [habs] at hmem
              exact List.not_mem_nil n hmem
            have hhead : st'.seen.head? = some k := by
              rw [hext]
              rfl
            rw [hsplit] at hhead
            cases pre with
            | nil => exact absurd rfl hpre_ne
            | cons p ps => simpa using hhead
        | stuck =>
          simp only [substituteLoop, if_neg hres, hr] at heq
          cases heq

/-! ### Claim theorems -/

/-- C1: the claim says every entry's stored value in the returned mapping
is its fully substituted form, overwritten whenever the substituted string
differs from the value stored before the call.  The code instead compares
the substituted string against the entry's key name (`entry != subst`).
At the failing input the call succeeds, the substituted string for key X
is "X" (different from the stored value), yet the returned mapping still
stores the raw, unsubstituted value containing a placeholder that refers
to the defined key Y. -/
theorem c1_bug_unsubstituted_value_kept :
    substitute [("X", "${Y}"), ("Y", "X")] =
      SubstResult.ok [("X", "${Y}"), ("Y", "X")] ∧
    resolveEntry 3 "X" ⟨[("X", "${Y}"), ("Y", "X")], [], []⟩ =
      (⟨[("X", "${Y}"), ("Y", "X")], ["X", "Y"], ["X", "Y"]⟩, ROut.ok "X") ∧
    (("X" == "${Y}") = false) ∧
    Tok.hole "Y" ∈ scanToks ("${Y}".data) ∧
    lookupA [("X", "${Y}"), ("Y", "X")] "Y" = some "X" := by decide

/-- C2: the claim says the resolved mapping is identical for any
permutation of key iteration order.  The two permuted mappings below both
resolve successfully, but key A ends up with value "X" in one order and
with the raw value of X (still holding a placeholder) in the other,
because the memoized branch returns the stored value of X, which the
`entry != subst` comparison failed to overwrite. -/
theorem c2_bug_order_dependent :
    List.Perm [("A", "${X}"), ("X", "${Y}"), ("Y", "X")]
      [("X", "${Y}"), ("Y", "X"), ("A", "${X}")] ∧
    substitute [("A", "${X}"), ("X", "${Y}"), ("Y", "X")] =
      SubstResult.ok [("A", "X"), ("X", "${Y}"), ("Y", "X")] ∧
    substitute [("X", "${Y}"), ("Y", "X"), ("A", "${X}")] =
      SubstResult.ok [("X", "${Y}"), ("Y", "X"), ("A", "${Y}")] ∧
    ((lookupA [("A", "X"), ("X", "${Y}"), ("Y", "X")] "A" ==
      lookupA [("X", "${Y}"), ("Y", "X"), ("A", "${Y}")] "A") = false) := by decide

/-- C3: the claim says two entries referencing a third both receive the
third's identical fully resolved value.  Below P and Q both reference X;
the call succeeds, P receives X's fully resolved value "X", but Q, served
from the memoized branch, receives X's stored value, which is still the
raw "$\x7bY\x7d" because the `entry != subst` comparison skipped the
overwrite for X. -/
theorem c3_bug_fanout_values_differ :
    substitute [("P", "${X}"), ("Q", "${X}"), ("X", "${Y}"), ("Y", "X")] =
      SubstResult.ok [("P", "X"), ("Q", "${Y}"), ("X", "${Y}"), ("Y", "X")] ∧
    Tok.hole "X" ∈ scanToks ("${X}".data) ∧
    lookupA [("P", "${X}"), ("Q", "${X}"), ("X", "${Y}"), ("Y", "X")] "P" =
      some "${X}" ∧
    lookupA [("P", "${X}"), ("Q", "${X}"), ("X", "${Y}"), ("Y", "X")] "Q" =
      some "${X}" ∧
    ((lookupA [("P", "X"), ("Q", "${Y}"), ("X", "${Y}"), ("Y", "X")] "P" ==
      lookupA [("P", "X"), ("Q", "${Y}"), ("X", "${Y}"), ("Y", "X")] "Q") = false) :=
  by decide

/-- C4 counterexample: the claim says the carried chain starts at the
first repetition point.  Resolving B from top-level entry A produces the
chain A, B, B; its first element A occurs exactly once in the chain, so
the chain does not start at a repetition point, and it differs from the
chain B, B that the claim prescribes for this input. -/
theorem c4_counterexample_chain_has_nonrepeating_head :
    substitute [("A", "${B}"), ("B", "${B}")] =
      SubstResult.err (Err.cyclic ["A", "B", "B"]) [("A", "${B}"), ("B", "${B}")] ∧
    (["A", "B", "B"].count "A") = 1 ∧
    ((["A", "B", "B"] == ["B", "B"]) = false) := by decide

/-- C4 amended: whenever `substitute` raises a cyclic-reference error,
the carried chain is the entire seen chain of the failing top-level call:
a duplicate-free chain that starts at the top-level entry (a key of the
mapping) with the name that closed the cycle appended at the end,
duplicating its earlier occurrence. -/
theorem c4_cyclic_chain_is_full_seen_chain :
    ∀ (M : List (String × String)) (c : List String) (E : List (String × String)),
      substitute M = SubstResult.err (Err.cyclic c) E →
      ∃ pre n, c = pre ++ [n] ∧ n ∈ pre ∧ pre.Nodup ∧
        ∃ k, pre.head? = some k ∧ k ∈ keysOf M := by
  intro M c E heq
  exact substituteLoop_cyclic (keysOf M) ⟨M, [], []⟩ c E (fun k hk => hk) heq

/-- C4 amended, witness at the self-referencing entry A. -/
theorem c4_cyclic_chain_is_full_seen_chain_witness :
    ∃ pre n, (["A", "A"] : List String) = pre ++ [n] ∧ n ∈ pre ∧ pre.Nodup ∧
      ∃ k, pre.head? = some k ∧ k ∈ keysOf [("A", "${A}")] :=
  c4_cyclic_chain_is_full_seen_chain [("A", "${A}")] ["A", "A"] [("A", "${A}")]
    (by decide)

/-- C5: an undefined-reference error is raised exactly when a scanned
placeholder names a non-key: any undefined-reference error escaping
`substitute` carries a name that is not a key of the input mapping (nor
of the mapping state at the raise), and the capture handler raises it
immediately, carrying exactly the offending name, whenever the looked-up
capture is absent from the entries. -/
theorem c5_undefined_reference :
    (∀ (M : List (String × String)) (n : String) (E : List (String × String)),
        substitute M = SubstResult.err (Err.undefined n) E →
        lookupA M n = none ∧ lookupA E n = none) ∧
    (∀ (recur : String → St → St × ROut) (n : String) (st : St),
        lookupA st.entries n = none →
        handleCapture recur n st = (st, ROut.err (Err.undefined n))) := by
  constructor
  · intro M n E heq
    have hE : lookupA E n = none := substituteLoop_uerr _ _ _ _ heq
    have hkeys : keysOf E = keysOf M :=
      (substituteLoop_keys (keysOf M) ⟨M, [], []⟩).2 _ _ heq
    refine ⟨?_, hE⟩
    rw [lookupA_eq_none_iff] at hE ⊢
    rw [← hkeys]
    exact hE
  · intro recur n st hl
    simp only [handleCapture, hl]

/-- C5 witness: at the mapping with the single entry A referencing the
absent B, and at a concrete handler state missing B. -/
theorem c5_undefined_reference_witness :
    (lookupA [("A", "${B}")] "B" = none ∧ lookupA [("A", "${B}")] "B" = none) ∧
    handleCapture (fun _ st => (st, ROut.stuck)) "B" ⟨[("A", "x")], [], []⟩ =
      (⟨[("A", "x")], [], []⟩, ROut.err (Err.undefined "B")) :=
  ⟨c5_undefined_reference.1 [("A", "${B}")] "B" [("A", "${B}")] (by decide),
   c5_undefined_reference.2 (fun _ st => (st, ROut.stuck)) "B"
     ⟨[("A", "x")], [], []⟩ (by decide)⟩

/-- C6: on every finite input mapping, `substitute` terminates with a
definite outcome: it returns a mapping or raises one of the two errors;
the fuel-exhaustion marker of the embedding is unreachable because every
recursive descent strictly shrinks the set of keys not yet on the seen
chain. -/
theorem c6_terminates :
    ∀ M : List (String × String),
      (∃ E, substitute M = SubstResult.ok E) ∨
      (∃ e E, substitute M = SubstResult.err e E) := by
  intro M
  have hns := substituteLoop_no_stuck (keysOf M) ⟨M, [], []⟩ (fun k hk => hk)
  cases hsub : substitute M with
  | ok E => exact Or.inl ⟨E, rfl⟩
  | err e E => exact Or.inr ⟨e, E, rfl⟩
  | stuck => exact absurd hsub hns

/-- C7: the claim states idempotence on acyclic, fully-defined mappings.
The mapping below is fully defined and acyclic (witnessed by a rank
function decreasing along every reference), resolves successfully, yet
resolving the result again changes the value of key A, because the first
pass stored X's raw value and spliced it, unresolved, into A. -/
theorem c7_bug_not_idempotent :
    fullyDefined [("X", "${Y}"), ("Y", "X"), ("A", "${X}")] ∧
    acyclicRank [("X", "${Y}"), ("Y", "X"), ("A", "${X}")]
      (fun k => if k = "A" then 2 else if k = "X" then 1 else 0) ∧
    substitute [("X", "${Y}"), ("Y", "X"), ("A", "${X}")] =
      SubstResult.ok [("X", "${Y}"), ("Y", "X"), ("A", "${Y}")] ∧
    substitute [("X", "${Y}"), ("Y", "X"), ("A", "${Y}")] =
      SubstResult.ok [("X", "${Y}"), ("Y", "X"), ("A", "X")] ∧
    ((lookupA [("X", "${Y}"), ("Y", "X"), ("A", "${Y}")] "A" ==
      lookupA [("X", "${Y}"), ("Y", "X"), ("A", "X")] "A") = false) := by decide

/-- C8: resolution never adds or removes a key: whether `substitute`
returns the mapping or raises either error, the key list and the size of
the mapping it leaves behind equal those of the input; only values are
rewritten. -/
theorem c8_keys_preserved :
    ∀ M : List (String × String),
      (∀ E, substitute M = SubstResult.ok E →
        keysOf E = keysOf M ∧ E.length = M.length) ∧
      (∀ e E, substitute M = SubstResult.err e E →
        keysOf E = keysOf M ∧ E.length = M.length) := by
  intro M
  constructor
  · intro E heq
    have hk := (substituteLoop_keys (keysOf M) ⟨M, [], []⟩).1 E heq
    refine ⟨hk, ?_⟩
    have hlen := congrArg List.length hk
    simpa [keysOf_length] using hlen
  · intro e E heq
    have hk := (substituteLoop_keys (keysOf M) ⟨M, [], []⟩).2 e E heq
    refine ⟨hk, ?_⟩
    have hlen := congrArg List.length hk
    simpa [keysOf_length] using hlen

/-- C8 witness: at a one-entry mapping that succeeds and at a one-entry
mapping that raises an undefined-reference error. -/
theorem c8_keys_preserved_witness :
    (keysOf [("A", "x")] = keysOf [("A", "x")] ∧
      ([("A", "x")] : List (String × String)).length =
        ([("A", "x")] : List (String × String)).length) ∧
    (keysOf [("A", "${B}")] = keysOf [("A", "${B}")] ∧
      ([("A", "${B}")] : List (String × String)).length =
        ([("A", "${B}")] : List (String × String)).length) :=
  ⟨(c8_keys_preserved [("A", "x")]).1 [("A", "x")] (by decide),
   (c8_keys_preserved [("A", "${B}")]).2 (Err.undefined "B") [("A", "${B}")]
     (by decide)⟩

/-- C9: starting from a duplicate-free seen chain that does not contain
the entry, the seen chain at the end of a resolution step is
duplicate-free on every outcome other than a cyclic error; on a cyclic
error the final chain (which is exactly the carried chain) is a
duplicate-free chain with the one repeated name appended as its final
element at the moment the cycle was detected. -/
theorem c9_seen_chain_nodup :
    ∀ (fuel : Nat) (entry : String) (st st' : St) (r : ROut),
      st.seen.Nodup → entry ∉ st.seen → resolveEntry fuel entry st = (st', r) →
      ((∀ c, r ≠ ROut.err (Err.cyclic c)) → st'.seen.Nodup) ∧
      (∀ c, r = ROut.err (Err.cyclic c) →
        c = st'.seen ∧ ∃ pre n, st'.seen = pre ++ [n] ∧ n ∈ pre ∧ pre.Nodup) := by
  intro fuel entry st st' r hnd hentry heq
  have hok := resolveEntry_nodup fuel entry st st' r hnd hentry heq
  constructor
  · intro hnc
    cases r with
    | ok s => exact hok
    | err e =>
      cases e with
      | cyclic c => exact absurd rfl (hnc c)
      | undefined n => exact hok
    | stuck => exact hok
  · intro c hc
    subst hc
    exact hok

/-- C9 witness: the self-referencing entry A detects its one-element
cycle and ends with the chain A, A: the duplicate-free prefix A followed
by the repeated name A. -/
theorem c9_seen_chain_nodup_witness :
    (["A", "A"] : List String) = (St.mk [("A", "${A}")] [] ["A", "A"]).seen ∧
    ∃ pre n, (St.mk [("A", "${A}")] [] ["A", "A"]).seen = pre ++ [n] ∧
      n ∈ pre ∧ pre.Nodup :=
  (c9_seen_chain_nodup 2 "A" ⟨[("A", "${A}")], [], []⟩
    ⟨[("A", "${A}")], [], ["A", "A"]⟩ (ROut.err (Err.cyclic ["A", "A"]))
    (by decide) (by decide) (by decide)).2 ["A", "A"] rfl

/-- C10: after a successful resolution of an entry, the stored value is
the substituted string if and only if that string differs from the
entry's key name (the source's `entry != subst` comparison); when the
substituted string equals the key name, the entry's stored value is left
exactly as it was before the call, even though the entry is marked
resolved. -/
theorem c10_store_compares_key_not_value :
    ∀ (fuel : Nat) (entry : String) (st st' : St) (v : String),
      entry ∉ st.seen → resolveEntry fuel entry st = (st', ROut.ok v) →
      entry ∈ st'.resolved ∧
      lookupA st'.entries entry =
        (if v = entry then lookupA st.entries entry else some v) := by
  intro fuel entry st st' v hentry heq
  cases fuel with
  | zero =>
    simp only [resolveEntry] at heq
    cases heq
  | succ n =>
    simp only [resolveEntry] at heq
    cases hl : lookupA st.entries entry with
    | none =>
      simp only [hl] at heq
      cases heq
    | some value =>
      simp only [hl] at heq
      cases hs : substValue (handleCapture (resolveEntry n)) (scanToks value.data)
          ⟨st.entries, st.resolved, st.seen ++ [entry]⟩ with
      | mk st2 r2 =>
        cases r2 with
        | ok subst =>
          simp only [hs] at heq
          cases heq
          have hmem : entry ∈ (St.mk st.entries st.resolved
              (st.seen ++ [entry])).seen := by
            simp
          have hfro : lookupA st2.entries entry = lookupA st.entries entry :=
            substValue_frozen
              (handleCapture_evo
                (fun c stA stB rB hB => (resolveEntry_evo n c stA stB rB hB).1))
              (handleCapture_frozen
                (fun c stA stB rB hc hB => resolveEntry_frozen n c stA stB rB hc hB))
              _ _ _ _ hs entry hmem
          constructor
          · rw [finishEntry_resolved]
            exact List.mem_cons_self entry st2.resolved
          · by_cases hes : v = entry
            · subst hes
              simp [finishEntry, hfro, hl]
            · have hes2 : ¬ entry = v := fun hh => hes hh.symm
              simp [finishEntry, hes, hes2, lookupA_updateA_self]
        | err e =>
          simp only [hs] at heq
          cases heq
        | stuck =>
          simp only [hs] at heq
          cases heq

/-- C10 witness: at the mapping where X's value references Y and Y's
value is the literal text X, resolving X substitutes to the string "X",
equal to the key, so the raw value of X (still containing a placeholder)
remains stored while X is marked resolved. -/
theorem c10_store_compares_key_not_value_witness :
    "X" ∈ (St.mk [("X", "${Y}"), ("Y", "X")] ["X", "Y"] ["X", "Y"]).resolved ∧
    lookupA (St.mk [("X", "${Y}"), ("Y", "X")] ["X", "Y"] ["X", "Y"]).entries "X" =
      (if ("X" : String) = "X" then
        lookupA (St.mk [("X", "${Y}"), ("Y", "X")] [] []).entries "X"
      else some "X") :=
  c10_store_compares_key_not_value 3 "X" ⟨[("X", "${Y}"), ("Y", "X")], [], []⟩
    ⟨[("X", "${Y}"), ("Y", "X")], ["X", "Y"], ["X", "Y"]⟩ "X" (by decide) (by decide)
